import Mathlib

/-!
# Verification of the EME-32 core (`src/lib.rs`)

Shallow embedding of the EME (ECB-Mix-ECB) wide-block cipher core.  Bytes are
`Nat` values reduced mod 256 exactly where the `u8` arithmetic of the source
wraps; a 16-byte block is a `List Nat` of length 16; the 512-byte buffer is a
`List` of 32 blocks.  The underlying block cipher is an abstract parameter
`E : Block → Block` (the source delegates to the external `aesti` crate, which
the specification declares out of scope).  Loops become structural recursion
or folds that thread the evolving accumulators (`l`, `m`, `mp`) exactly as the
source mutates them.
-/

/-- A 16-byte block: a list of byte values (`Nat`, kept below 256). -/
abbrev Block : Type := List Nat

/-- The all-zero block `0^16`. -/
def zeroBlock : Block := List.replicate 16 0

/-- Source function `xor_blocks`: byte-wise XOR of two blocks
(`*out = a ^ b` over the zipped iterators). -/
def xor_blocks (a b : Block) : Block := List.zipWith (fun x y => x ^^^ y) a b

/-- Loop body of `mult_by_2` for `j = 1..16`:
`out[j] = 2 * input[j]` (wrapping `u8` arithmetic) and `out[j] += 1` when
`input[j-1] >= 128`.  `prev` carries `input[j-1]`. -/
def mult2Aux (prev : Nat) : List Nat → List Nat
  | [] => []
  | b :: bs => ((2 * b) % 256 + (if 128 ≤ prev then 1 else 0)) % 256 :: mult2Aux b bs

/-- Source function `mult_by_2`: multiply by 2 in GF(2^128).
`out[0] = 2 * input[0]`, XORed with 135 when `input[15] >= 128`; for
`j = 1..16`, `out[j] = 2 * input[j]` plus a carry when `input[j-1] >= 128`. -/
def mult_by_2 (input : Block) : Block :=
  match input with
  | [] => []
  | b0 :: bs =>
      (((2 * b0) % 256) ^^^ (if 128 ≤ input.getD 15 0 then 135 else 0)) :: mult2Aux b0 bs

/-- A block is well-formed when it has exactly 16 entries, all bytes. -/
def Bytes16 (b : Block) : Prop := b.length = 16 ∧ ∀ x ∈ b, x < 256

instance : DecidablePred Bytes16 := fun b => by
  unfold Bytes16; infer_instance

/-- Inverse direction of the doubling, derived for the bijectivity argument:
each byte is rebuilt from its shifted value and the low bit of its successor;
`tc` is the carry that re-enters at the top byte. -/
def div2Aux : List Nat → Nat → List Nat
  | [], _ => []
  | [v], tc => [v / 2 + 128 * tc]
  | v :: w :: vs, tc => (v / 2 + 128 * (w % 2)) :: div2Aux (w :: vs) tc

/-- Inverse of `mult_by_2` on well-formed blocks: undo the conditional
`0x87` reduction at byte 0, then halve every byte, moving each byte's low bit
up to the top bit of its predecessor. -/
def div_by_2 (y : Block) : Block :=
  match y with
  | [] => []
  | y0 :: ys => div2Aux ((y0 ^^^ (if y0 % 2 = 1 then 135 else 0)) :: ys) (y0 % 2)

/-- The big-endian reading of the specification sentence for the doubling:
each byte receives the carry out of the byte after it (carry moves to the
*previous* byte), and byte 0 is XORed with `0x87` when byte 15's top bit is
set.  Written from the spec's words, to be compared with `mult_by_2`. -/
def shiftPrevCarry (x : Block) : Block :=
  List.ofFn fun j : Fin 16 =>
    if (j : Nat) = 0 then
      ((2 * x.getD 0 0) % 256 ^^^ (if 128 ≤ x.getD 1 0 then 1 else 0)) ^^^
        (if 128 ≤ x.getD 15 0 then 135 else 0)
    else if (j : Nat) < 15 then
      (2 * x.getD j 0) % 256 ^^^ (if 128 ≤ x.getD ((j : Nat) + 1) 0 then 1 else 0)
    else
      (2 * x.getD 15 0) % 256

/-- The little-endian reading: each byte receives the carry out of the byte
before it (carry moves to the *next* byte, realised as an XOR with 1 since the
doubled byte is even), and byte 0 receives byte 15's overflow through the
`0x87` XOR.  Written from the amended wording, to be compared with
`mult_by_2`. -/
def shiftNextCarry (x : Block) : Block :=
  List.ofFn fun j : Fin 16 =>
    if (j : Nat) = 0 then
      (2 * x.getD 0 0) % 256 ^^^ (if 128 ≤ x.getD 15 0 then 135 else 0)
    else
      (2 * x.getD j 0) % 256 ^^^ (if 128 ≤ x.getD ((j : Nat) - 1) 0 then 1 else 0)

/-! ## Buffers of blocks and loop machinery

The 512-byte buffer is 32 blocks.  A `for j in a..a+k` loop that writes
`c[j]` while threading an accumulator becomes a `sweep` over the index list
`rng a k`. -/

abbrev Buf : Type := List Block

/-- The index list `a, a+1, …, a+k-1`. -/
def rng (a : Nat) : Nat → List Nat
  | 0 => []
  | k + 1 => a :: rng (a + 1) k

/-- One in-place loop: at each index `j` the buffer entry is replaced by
`g j` of the current entry and the threaded accumulator, and the accumulator
is advanced by `upd`. -/
def sweep {σ : Type} (g : Nat → Block → σ → Block) (upd : σ → σ) :
    List Nat → Buf × σ → Buf × σ
  | [], s => s
  | j :: js, (c, st) =>
      sweep g upd js (c.set j (g j (c.getD j zeroBlock) st), upd st)

/-- XOR-sum of the buffer entries at indices `a, …, a+k-1`. -/
def xorSumR (buf : Buf) (a k : Nat) : Block :=
  (rng a k).foldr (fun j acc => xor_blocks (buf.getD j zeroBlock) acc) zeroBlock

/-! ## The EME-32 encrypt transform (`eme_32_aes_enc`)

Each loop of the source becomes one named phase; the whole transform is their
composition, started from the caller's output buffer `c` (which the source
mutates in place). -/

/-- Pass 1: `c[j] = AES-enc(k; p[j] XOR l)` with `l` starting at
`2 * AES-enc(k; 0)` and doubled after every block. -/
def phase1 (E : Block → Block) (p : Buf) (c : Buf) : Buf :=
  (sweep (fun j _ l => E (xor_blocks (p.getD j zeroBlock) l)) mult_by_2
    (rng 0 32) (c, mult_by_2 (E zeroBlock))).1

/-- The mixing accumulator: `mp = (c[0] XOR t) XOR c[1] XOR … XOR c[31]`. -/
def mixMP (t : Block) (buf : Buf) : Block :=
  (rng 1 31).foldl (fun mp j => xor_blocks mp (buf.getD j zeroBlock))
    (xor_blocks (buf.getD 0 zeroBlock) t)

/-- Pass 2 over blocks `1..31`: `m` is doubled, then folded into `c[j]`. -/
def phase2 (m : Block) (buf : Buf) : Buf :=
  (sweep (fun _ v m => xor_blocks v (mult_by_2 m)) mult_by_2 (rng 1 31) (buf, m)).1

/-- Block 0 of the middle buffer: `c[0] = mc XOR t`, then XOR-accumulate
blocks `1..31` into it. -/
def mixC0 (mc t : Block) (buf : Buf) : Buf :=
  (rng 1 31).foldl
    (fun b j => b.set 0 (xor_blocks (b.getD 0 zeroBlock) (b.getD j zeroBlock)))
    (buf.set 0 (xor_blocks mc t))

/-- The mixed value `MP` of the specification: `(xorSum PPPj) xor t`. -/
def mpVal (E : Block → Block) (t : Block) (p c : Buf) : Block :=
  mixMP t (phase1 E p c)

/-- The mixed value `MC = AES-enc(k; MP)`. -/
def mcVal (E : Block → Block) (t : Block) (p c : Buf) : Block :=
  E (mpVal E t p c)

/-- The buffer of `CCC` blocks: state of `c` after the mixing step and
pass 2, just before the final ECB pass. -/
def cccBuf (E : Block → Block) (t : Block) (p : Buf) (c : Buf) : Buf :=
  mixC0 (mcVal E t p c) t
    (phase2 (xor_blocks (mpVal E t p c) (mcVal E t p c)) (phase1 E p c))

/-- Pass 3: `c[j] = AES-enc(k; c[j]) XOR l`, `l` again starting at
`2 * AES-enc(k; 0)` and doubled after every block. -/
def phase3 (E : Block → Block) (buf : Buf) : Buf :=
  (sweep (fun _ v l => xor_blocks (E v) l) mult_by_2 (rng 0 32) (buf, mult_by_2 (E zeroBlock))).1

/-- Source function `eme_32_aes_enc`, with the block cipher abstracted as
`E`: pass 1, the mixing step, pass 2 (with the block-0 correction), pass 3. -/
def eme_32_aes_enc (E : Block → Block) (t : Block) (p : Buf) (c : Buf) : Buf :=
  phase3 E (cccBuf E t p c)

/-! ## The EME-32 decrypt transform

The reference source implements only the forward transform.  The inverse is
modelled from the spec and proved to undo the forward transform. -/

/-- Modelled from the spec: decrypt pass 1 (the inverse of encrypt pass 3).
`CCC[j] = AES-dec(k; C[j] XOR l)` with the same doubling mask sequence
`l = 2 * AES-enc(k; 0), 4 * AES-enc(k; 0), …` as the forward passes. -/
def decPassA (E D : Block → Block) (c : Buf) : Buf :=
  (sweep (fun _ v l => D (xor_blocks v l)) mult_by_2 (rng 0 32)
    (c, mult_by_2 (E zeroBlock))).1

/-- Modelled from the spec: decrypt pass 3 (the inverse of encrypt pass 1).
`P[j] = AES-dec(k; PPP[j]) XOR l` with the same doubling mask sequence. -/
def decPassC (E D : Block → Block) (buf : Buf) : Buf :=
  (sweep (fun _ v l => xor_blocks (D v) l) mult_by_2 (rng 0 32)
    (buf, mult_by_2 (E zeroBlock))).1

/-- Modelled from the spec: `MC` recovered from the ciphertext side,
`MC = T XOR (XOR-sum of all CCC blocks)` (the analogue of how encrypt derives
`CCC[0]`). -/
def mcDec (E D : Block → Block) (t : Block) (c : Buf) : Block :=
  xor_blocks t (xorSumR (decPassA E D c) 0 32)

/-- Modelled from the spec: `MP = AES-dec(k; MC)` on the decrypt side. -/
def mpDec (E D : Block → Block) (t : Block) (c : Buf) : Block :=
  D (mcDec E D t c)

/-- Modelled from the spec: the full inverse transform — recover the CCC
blocks, recover `MC` and `MP`, undo the pass-2 injection on blocks `1..31`
and the block-0 correction (now carrying `MP`), then run the inverse ECB
pass. -/
def eme_32_aes_dec (E D : Block → Block) (t : Block) (c : Buf) : Buf :=
  decPassC E D
    (mixC0 (mpDec E D t c) t
      (phase2 (xor_blocks (mpDec E D t c) (mcDec E D t c)) (decPassA E D c)))

/-! ## Instrumentation: counting block-cipher invocations -/

/-- Variant of `sweep` instrumented with an invocation counter: `g` reports, with each
written block, how many single-block cipher calls produced it. -/
def sweepCount {σ : Type} (g : Nat → Block → σ → Block × Nat) (upd : σ → σ) :
    List Nat → Buf × σ × Nat → Buf × σ × Nat
  | [], s => s
  | j :: js, (c, st, n) =>
      sweepCount g upd js
        (c.set j (g j (c.getD j zeroBlock) st).1, upd st,
          n + (g j (c.getD j zeroBlock) st).2)

/-- Variant of `eme_32_aes_enc` instrumented to count block-cipher invocations: one for
the zero block, one per block in pass 1, one for `MC`, and one per block in
pass 3 — the mixing folds and pass 2 make no cipher calls. -/
def eme_32_aes_enc_counted (E : Block → Block) (t : Block) (p c : Buf) :
    Buf × Nat :=
  let s1 := sweepCount (fun j _ l => (E (xor_blocks (p.getD j zeroBlock) l), 1))
    mult_by_2 (rng 0 32) (c, mult_by_2 (E zeroBlock), 1)
  let mp := mixMP t s1.1
  let mc := E mp
  let c2 := mixC0 mc t (phase2 (xor_blocks mp mc) s1.1)
  let s3 := sweepCount (fun _ v l => (xor_blocks (E v) l, 1)) mult_by_2 (rng 0 32)
    (c2, mult_by_2 (E zeroBlock), s1.2.2 + 1)
  (s3.1, s3.2.2)

/-! ## The key-checked entry point -/

/-- The only error kind of the core. -/
inductive EmeError : Type
  | keyError : EmeError

/-- Key-checked entry point.  The source's `encrypt_aes` builds the key
schedule with `Aes::with_key(k).unwrap()` at every block-cipher call, so an
invalid key aborts the whole call at the first cipher invocation, before any
output byte is produced; this is modelled by an `Except` that carries the
complete output buffer only on success.  `withKey` is the external cipher's
key schedule: `none` exactly when the key is invalid for that cipher. -/
def eme_32_aes_enc_checked (withKey : List Nat → Option (Block → Block))
    (k : List Nat) (t : Block) (p c : Buf) : Except EmeError Buf :=
  match withKey k with
  | none => Except.error EmeError.keyError
  | some E => Except.ok (eme_32_aes_enc E t p c)

/-! ## Basis blocks and multiplication by the reduction constant -/

/-- The block whose byte `i` is the single bit `2^k`, all other bytes zero. -/
def basisBit (i k : Nat) : Block :=
  List.ofFn fun r : Fin 16 => if (r : Nat) = i then 2 ^ k else 0

/-- The block whose byte `i` is `v`, all other bytes zero. -/
def byteBlock (i v : Nat) : Block :=
  List.ofFn fun r : Fin 16 => if (r : Nat) = i then v else 0

/-- XOR of a list of blocks. -/
def bigXor (L : List Block) : Block := L.foldr xor_blocks zeroBlock

/-- Multiplication by `x^7 + x^2 + x + 1` (the reduction remainder of
`x^128`): `x XOR 2x XOR 4x XOR 128x` in the field. -/
def mulBy87 (x : Block) : Block :=
  xor_blocks (xor_blocks x (mult_by_2 x))
    (xor_blocks (mult_by_2^[2] x) (mult_by_2^[7] x))

set_option maxRecDepth 100000

/-! ## Byte-level helper facts -/

theorem byte_xor135_lt : ∀ m, m < 256 → m ^^^ 135 < 256 := by decide

theorem byte_even_xor135_parity : ∀ m, m < 256 → m % 2 = 0 → (m ^^^ 135) % 2 = 1 := by
  decide

theorem byte_even_add_one_eq_xor : ∀ m, m < 256 → m % 2 = 0 → (m + 1) % 256 = m ^^^ 1 := by
  decide

/-! ## Length and index characterisations of the doubling -/

theorem mult2Aux_length (prev : Nat) (bs : List Nat) :
    (mult2Aux prev bs).length = bs.length := by
  induction bs generalizing prev with
  | nil => rfl
  | cons b bs ih => simp [mult2Aux, ih]

theorem mult_by_2_length (x : Block) : (mult_by_2 x).length = x.length := by
  cases x with
  | nil => rfl
  | cons b0 bs => simp [mult_by_2, mult2Aux_length]

theorem mult2Aux_getD (prev : Nat) (bs : List Nat) (j : Nat) (h : j < bs.length) :
    (mult2Aux prev bs).getD j 0 =
      ((2 * bs.getD j 0) % 256 +
        (if 128 ≤ (if j = 0 then prev else bs.getD (j - 1) 0) then 1 else 0)) % 256 := by
  induction bs generalizing prev j with
  | nil => simp at h
  | cons b bs ih =>
      cases j with
      | zero => simp [mult2Aux]
      | succ j =>
          have hj : j < bs.length := by simpa using h
          rw [mult2Aux, List.getD_cons_succ, List.getD_cons_succ, ih b j hj]
          cases j with
          | zero => simp
          | succ j => simp

theorem mult_by_2_getD_zero (x : Block) (hx : x ≠ []) :
    (mult_by_2 x).getD 0 0 =
      (2 * x.getD 0 0) % 256 ^^^ (if 128 ≤ x.getD 15 0 then 135 else 0) := by
  cases x with
  | nil => exact absurd rfl hx
  | cons b0 bs => simp [mult_by_2]

theorem mult_by_2_getD_succ (x : Block) (j : Nat) (h1 : 1 ≤ j) (h2 : j < x.length) :
    (mult_by_2 x).getD j 0 =
      ((2 * x.getD j 0) % 256 + (if 128 ≤ x.getD (j - 1) 0 then 1 else 0)) % 256 := by
  cases x with
  | nil => simp at h2
  | cons b0 bs =>
      cases j with
      | zero => exact absurd h1 (by simp)
      | succ j =>
          have hj : j < bs.length := by simpa using h2
          rw [mult_by_2, List.getD_cons_succ, List.getD_cons_succ, mult2Aux_getD b0 bs j hj]
          cases j with
          | zero => simp
          | succ j => simp

theorem div2Aux_length (vs : List Nat) (tc : Nat) : (div2Aux vs tc).length = vs.length := by
  induction vs, tc using div2Aux.induct with
  | case1 => rfl
  | case2 => rfl
  | case3 v w vs tc ih => simpa [div2Aux] using ih

theorem div2Aux_getD (vs : List Nat) (tc : Nat) (j : Nat) (h : j < vs.length) :
    (div2Aux vs tc).getD j 0 =
      vs.getD j 0 / 2 +
        128 * (if j + 1 < vs.length then vs.getD (j + 1) 0 % 2 else tc) := by
  induction vs, tc using div2Aux.induct generalizing j with
  | case1 tc => simp at h
  | case2 v tc =>
      cases j with
      | zero => simp [div2Aux]
      | succ j => simp at h
  | case3 v w vs tc ih =>
      cases j with
      | zero =>
          have e1 : (div2Aux (v :: w :: vs) tc).getD 0 0 = v / 2 + 128 * (w % 2) := rfl
          have hc : (0 : Nat) + 1 < (v :: w :: vs).length := by
            simp only [List.length_cons]; omega
          rw [e1, if_pos hc]
          rfl
      | succ j =>
          have hj : j < (w :: vs).length := by simpa using h
          have e1 : (div2Aux (v :: w :: vs) tc).getD (j + 1) 0
              = (div2Aux (w :: vs) tc).getD j 0 := rfl
          have e2 : (v :: w :: vs).getD (j + 1) 0 = (w :: vs).getD j 0 := rfl
          have e3 : (v :: w :: vs).getD (j + 1 + 1) 0 = (w :: vs).getD (j + 1) 0 := rfl
          rw [e1, e2, e3, ih j hj]
          by_cases hcond : j + 1 < (w :: vs).length
          · rw [if_pos hcond, if_pos (by simp only [List.length_cons] at hcond ⊢; omega)]
          · rw [if_neg hcond, if_neg (by simp only [List.length_cons] at hcond ⊢; omega)]

theorem div_by_2_length (y : Block) : (div_by_2 y).length = y.length := by
  cases y with
  | nil => rfl
  | cons y0 ys => simp [div_by_2, div2Aux_length]

theorem getD_lt_256 (b : Block) (hb : ∀ x ∈ b, x < 256) (j : Nat) : b.getD j 0 < 256 := by
  by_cases h : j < b.length
  · rw [List.getD_eq_getElem _ _ h]
    exact hb _ (List.getElem_mem h)
  · rw [List.getD_eq_default _ _ (by omega)]
    omega

theorem block_ext (a b : Block) (ha : a.length = 16) (hb : b.length = 16)
    (h : ∀ j, j < 16 → a.getD j 0 = b.getD j 0) : a = b := by
  apply List.ext_getElem (by omega)
  intro i h1 h2
  have hi := h i (by omega)
  rwa [List.getD_eq_getElem _ _ h1, List.getD_eq_getElem _ _ h2] at hi

theorem bytes16_of_getD (b : Block) (hl : b.length = 16)
    (h : ∀ j, j < 16 → b.getD j 0 < 256) : Bytes16 b := by
  refine ⟨hl, ?_⟩
  intro xx hxx
  obtain ⟨i, hi, heq⟩ := List.mem_iff_getElem.mp hxx
  have hlt := h i (by omega)
  rwa [List.getD_eq_getElem _ _ hi, heq] at hlt

theorem ofFn16_getD (f : Fin 16 → Nat) (j : Nat) (hj : j < 16) :
    (List.ofFn f).getD j 0 = f ⟨j, hj⟩ := by
  rw [List.getD_eq_getElem _ _ (by simpa using hj), List.getElem_ofFn]

theorem div_by_2_getD (y : Block) (hy : y.length = 16) (j : Nat) (hj : j < 16) :
    (div_by_2 y).getD j 0 =
      (if j = 0 then y.getD 0 0 ^^^ (if y.getD 0 0 % 2 = 1 then 135 else 0)
        else y.getD j 0) / 2 +
      128 * (if j + 1 < 16 then y.getD (j + 1) 0 % 2 else y.getD 0 0 % 2) := by
  cases y with
  | nil => simp at hy
  | cons y0 ys =>
      have hlen' : ((y0 ^^^ (if y0 % 2 = 1 then 135 else 0)) :: ys).length = 16 := by
        simpa using hy
      have e : div_by_2 (y0 :: ys)
          = div2Aux ((y0 ^^^ (if y0 % 2 = 1 then 135 else 0)) :: ys) (y0 % 2) := rfl
      rw [e, div2Aux_getD _ _ j (by omega), hlen']
      cases j with
      | zero => simp
      | succ j => simp

theorem div_by_2_getD_zero (y : Block) (hy : y.length = 16) :
    (div_by_2 y).getD 0 0 =
      (y.getD 0 0 ^^^ (if y.getD 0 0 % 2 = 1 then 135 else 0)) / 2 +
        128 * (y.getD 1 0 % 2) := by
  rw [div_by_2_getD y hy 0 (by omega), if_pos (show (0 : Nat) = 0 from rfl),
    if_pos (show (0 : Nat) + 1 < 16 by omega)]

theorem div_by_2_getD_mid (y : Block) (hy : y.length = 16) (j : Nat)
    (h1 : 1 ≤ j) (h2 : j < 15) :
    (div_by_2 y).getD j 0 = y.getD j 0 / 2 + 128 * (y.getD (j + 1) 0 % 2) := by
  rw [div_by_2_getD y hy j (by omega), if_neg (show ¬j = 0 by omega),
    if_pos (show j + 1 < 16 by omega)]

theorem div_by_2_getD_last (y : Block) (hy : y.length = 16) :
    (div_by_2 y).getD 15 0 = y.getD 15 0 / 2 + 128 * (y.getD 0 0 % 2) := by
  rw [div_by_2_getD y hy 15 (by omega), if_neg (show ¬(15 : Nat) = 0 by omega),
    if_neg (show ¬(15 : Nat) + 1 < 16 by omega)]

/-! ## The doubling and its inverse cancel on well-formed blocks -/

theorem div_by_2_mult_by_2 (x : Block) (hx : Bytes16 x) :
    div_by_2 (mult_by_2 x) = x := by
  obtain ⟨hlen, hbytes⟩ := hx
  have hxlt : ∀ j : Nat, x.getD j 0 < 256 := getD_lt_256 x hbytes
  have hylen : (mult_by_2 x).length = 16 := by rw [mult_by_2_length, hlen]
  have hne : x ≠ [] := by intro he; rw [he] at hlen; simp at hlen
  have hy0 := mult_by_2_getD_zero x hne
  have hysucc : ∀ k, 1 ≤ k → k < 16 →
      (mult_by_2 x).getD k 0
        = ((2 * x.getD k 0) % 256 + (if 128 ≤ x.getD (k - 1) 0 then 1 else 0)) % 256 :=
    fun k h1 h2 => mult_by_2_getD_succ x k h1 (by omega)
  have hy0par : (mult_by_2 x).getD 0 0 % 2 = (if 128 ≤ x.getD 15 0 then 1 else 0) := by
    rw [hy0]
    by_cases h : 128 ≤ x.getD 15 0
    · rw [if_pos h, if_pos h]
      exact byte_even_xor135_parity _ (by omega) (by omega)
    · rw [if_neg h, if_neg h, Nat.xor_zero]
      omega
  have hv0 : (mult_by_2 x).getD 0 0 ^^^ (if (mult_by_2 x).getD 0 0 % 2 = 1 then 135 else 0)
      = (2 * x.getD 0 0) % 256 := by
    by_cases h : 128 ≤ x.getD 15 0
    · rw [hy0par, if_pos h, if_pos (show (1 : Nat) = 1 from rfl), hy0, if_pos h,
        Nat.xor_cancel_right]
    · rw [hy0par, if_neg h, if_neg (show ¬(0 : Nat) = 1 by omega), hy0, if_neg h,
        Nat.xor_zero, Nat.xor_zero]
  apply block_ext _ _ (by rw [div_by_2_length]; exact hylen) hlen
  intro j hj
  by_cases hj0 : j = 0
  · subst hj0
    rw [div_by_2_getD_zero _ hylen, hv0, hysucc 1 (by omega) (by omega),
      show (1 : Nat) - 1 = 0 from rfl]
    have ha0 := hxlt 0
    by_cases h : 128 ≤ x.getD 0 0
    · rw [if_pos h]; omega
    · rw [if_neg h]; omega
  · by_cases hj15 : j + 1 < 16
    · rw [div_by_2_getD_mid _ hylen j (by omega) (by omega), hysucc j (by omega) hj,
        hysucc (j + 1) (by omega) (by omega), Nat.add_sub_cancel]
      have haj := hxlt j
      by_cases h1 : 128 ≤ x.getD (j - 1) 0
      · rw [if_pos h1]
        by_cases h2 : 128 ≤ x.getD j 0
        · rw [if_pos h2]; omega
        · rw [if_neg h2]; omega
      · rw [if_neg h1]
        by_cases h2 : 128 ≤ x.getD j 0
        · rw [if_pos h2]; omega
        · rw [if_neg h2]; omega
    · have hj' : j = 15 := by omega
      subst hj'
      rw [div_by_2_getD_last _ hylen, hysucc 15 (by omega) (by omega),
        show (15 : Nat) - 1 = 14 from rfl, hy0par]
      have ha := hxlt 15
      by_cases h1 : 128 ≤ x.getD 14 0
      · rw [if_pos h1]
        by_cases h2 : 128 ≤ x.getD 15 0
        · rw [if_pos h2]; omega
        · rw [if_neg h2]; omega
      · rw [if_neg h1]
        by_cases h2 : 128 ≤ x.getD 15 0
        · rw [if_pos h2]; omega
        · rw [if_neg h2]; omega

theorem byte_odd_xor135_parity : ∀ m, m < 256 → m % 2 = 1 → (m ^^^ 135) % 2 = 0 := by
  decide

theorem mult_by_2_div_by_2 (y : Block) (hy : Bytes16 y) :
    mult_by_2 (div_by_2 y) = y := by
  obtain ⟨hlen, hbytes⟩ := hy
  have hylt : ∀ j : Nat, y.getD j 0 < 256 := getD_lt_256 y hbytes
  have hxlen : (div_by_2 y).length = 16 := by rw [div_by_2_length, hlen]
  have hxne : div_by_2 y ≠ [] := by
    intro he; rw [he] at hxlen; simp at hxlen
  have hx0 := div_by_2_getD_zero y hlen
  have hx15 := div_by_2_getD_last y hlen
  have hxmid := div_by_2_getD_mid y hlen
  apply block_ext _ _ (by rw [mult_by_2_length]; exact hxlen) hlen
  intro j hj
  by_cases hj0 : j = 0
  · subst hj0
    rw [mult_by_2_getD_zero _ hxne]
    by_cases hp : y.getD 0 0 % 2 = 1
    · have hcar : 128 ≤ (div_by_2 y).getD 15 0 := by
        rw [hx15, hp]; omega
      have hv0 : (2 * (div_by_2 y).getD 0 0) % 256 = y.getD 0 0 ^^^ 135 := by
        rw [hx0, if_pos hp]
        have h1 := byte_xor135_lt _ (hylt 0)
        have h2 := byte_odd_xor135_parity _ (hylt 0) hp
        have h3 : y.getD 1 0 % 2 ≤ 1 := by omega
        omega
      rw [if_pos hcar, hv0, Nat.xor_cancel_right]
    · have hp0 : y.getD 0 0 % 2 = 0 := by omega
      have hcar : ¬128 ≤ (div_by_2 y).getD 15 0 := by
        rw [hx15, hp0]
        have := hylt 15
        omega
      have hv0 : (2 * (div_by_2 y).getD 0 0) % 256 = y.getD 0 0 := by
        rw [hx0, if_neg hp, Nat.xor_zero]
        have h1 := hylt 0
        have h3 : y.getD 1 0 % 2 ≤ 1 := by omega
        omega
      rw [if_neg hcar, hv0, Nat.xor_zero]
  · rw [mult_by_2_getD_succ _ j (by omega) (by rw [hxlen]; omega)]
    have hcarry : (128 ≤ (div_by_2 y).getD (j - 1) 0) ↔ y.getD j 0 % 2 = 1 := by
      by_cases hj1 : j = 1
      · subst hj1
        rw [show (1 : Nat) - 1 = 0 from rfl, hx0]
        have h1 : (y.getD 0 0 ^^^ (if y.getD 0 0 % 2 = 1 then 135 else 0)) < 256 := by
          by_cases hp : y.getD 0 0 % 2 = 1
          · rw [if_pos hp]; exact byte_xor135_lt _ (hylt 0)
          · rw [if_neg hp, Nat.xor_zero]; exact hylt 0
        omega
      · rw [hxmid (j - 1) (by omega) (by omega), show j - 1 + 1 = j by omega]
        have := hylt (j - 1)
        omega
    have hval : (2 * (div_by_2 y).getD j 0) % 256 = y.getD j 0 - y.getD j 0 % 2 := by
      by_cases hj15 : j = 15
      · subst hj15
        rw [hx15]
        have := hylt 15
        have h3 : y.getD 0 0 % 2 ≤ 1 := by omega
        omega
      · rw [hxmid j (by omega) (by omega)]
        have := hylt j
        have h3 : y.getD (j + 1) 0 % 2 ≤ 1 := by omega
        omega
    rw [hval]
    by_cases hp : y.getD j 0 % 2 = 1
    · rw [if_pos (hcarry.mpr hp)]
      have := hylt j
      omega
    · rw [if_neg (fun hc => hp (hcarry.mp hc))]
      have := hylt j
      omega

theorem bytes16_div_by_2 (y : Block) (hy : Bytes16 y) : Bytes16 (div_by_2 y) := by
  obtain ⟨hlen, hbytes⟩ := hy
  have hylt : ∀ j : Nat, y.getD j 0 < 256 := getD_lt_256 y hbytes
  apply bytes16_of_getD _ (by rw [div_by_2_length, hlen])
  intro j hj
  by_cases hj0 : j = 0
  · subst hj0
    rw [div_by_2_getD_zero y hlen]
    have h1 : (y.getD 0 0 ^^^ (if y.getD 0 0 % 2 = 1 then 135 else 0)) < 256 := by
      by_cases hp : y.getD 0 0 % 2 = 1
      · rw [if_pos hp]; exact byte_xor135_lt _ (hylt 0)
      · rw [if_neg hp, Nat.xor_zero]; exact hylt 0
    have h2 : y.getD 1 0 % 2 ≤ 1 := by omega
    omega
  · by_cases hj15 : j = 15
    · subst hj15
      rw [div_by_2_getD_last y hlen]
      have := hylt 15
      have h2 : y.getD 0 0 % 2 ≤ 1 := by omega
      omega
    · rw [div_by_2_getD_mid y hlen j (by omega) (by omega)]
      have := hylt j
      have h2 : y.getD (j + 1) 0 % 2 ≤ 1 := by omega
      omega

/-! ## Claim C7: `mult_by_2` is a bijection on 16-byte values -/

/-- C7: `mult_by_2` is a bijection on well-formed 16-byte blocks: distinct
inputs give distinct outputs, and every 16-byte value is hit. -/
theorem c7_mult_by_2_bijective :
    (∀ x y, Bytes16 x → Bytes16 y → mult_by_2 x = mult_by_2 y → x = y) ∧
    (∀ y, Bytes16 y → ∃ x, Bytes16 x ∧ mult_by_2 x = y) := by
  constructor
  · intro x y hx hy h
    have hc := congrArg div_by_2 h
    rwa [div_by_2_mult_by_2 x hx, div_by_2_mult_by_2 y hy] at hc
  · intro y hy
    exact ⟨div_by_2 y, bytes16_div_by_2 y hy, mult_by_2_div_by_2 y hy⟩

/-- C7 witness: surjectivity instantiated at the block `(0x87, 0, …, 0)`. -/
theorem c7_mult_by_2_bijective_witness :
    ∃ x, Bytes16 x ∧ mult_by_2 x = [135,0,0,0,0,0,0,0,0,0,0,0,0,0,0,0] :=
  c7_mult_by_2_bijective.2 [135,0,0,0,0,0,0,0,0,0,0,0,0,0,0,0] (by decide)

/-! ## Claim C2: byte-level reading of the doubling -/

/-- C2 counterexample: on the block with only byte 0's top bit set, the code
moves the carry to byte 1; the claim's carry-to-the-previous-byte (big-endian)
shift instead discards it. -/
theorem c2_counterexample :
    mult_by_2 [128,0,0,0,0,0,0,0,0,0,0,0,0,0,0,0] ≠
      shiftPrevCarry [128,0,0,0,0,0,0,0,0,0,0,0,0,0,0,0] := by
  decide

/-- C2 amended: `mult_by_2` is the little-endian shift: byte `j` receives the
carry out of byte `j - 1` as an XOR with 1, and byte 0 receives byte 15's
overflow through the XOR with `0x87`. -/
theorem c2_mult_by_2_shift_next_carry (x : Block) (hx : x.length = 16) :
    mult_by_2 x = shiftNextCarry x := by
  have hne : x ≠ [] := by intro he; rw [he] at hx; simp at hx
  apply block_ext _ _ (by rw [mult_by_2_length, hx]) (by simp [shiftNextCarry])
  intro j hj
  rw [shiftNextCarry, ofFn16_getD _ j hj]
  by_cases hj0 : j = 0
  · subst hj0
    rw [mult_by_2_getD_zero x hne]
    simp
  · rw [mult_by_2_getD_succ x j (by omega) (by omega)]
    simp only [Fin.val_mk]
    rw [if_neg hj0]
    by_cases h : 128 ≤ x.getD (j - 1) 0
    · rw [if_pos h]
      exact byte_even_add_one_eq_xor _ (by omega) (by omega)
    · rw [if_neg h, Nat.xor_zero]
      omega

/-- C2 witness: the amended equation at a concrete block. -/
theorem c2_mult_by_2_shift_next_carry_witness :
    mult_by_2 [1,2,3,4,5,6,7,8,9,250,11,12,13,14,15,200] =
      shiftNextCarry [1,2,3,4,5,6,7,8,9,250,11,12,13,14,15,200] :=
  c2_mult_by_2_shift_next_carry [1,2,3,4,5,6,7,8,9,250,11,12,13,14,15,200] (by decide)

/-! ## Claim C10: the carry increment never wraps -/

/-- C10: in the loop body of `mult_by_2`, the doubled byte `2 * input[j] mod
256` is even, so the conditional `+= 1` cannot wrap and equals setting the low
bit (XOR with 1), which is what the output byte is. -/
theorem c10_carry_increment_no_wrap (input : Block) (j : Nat)
    (h1 : 1 ≤ j) (h2 : j < input.length) :
    (2 * input.getD j 0) % 256 % 2 = 0 ∧
    (2 * input.getD j 0) % 256 + 1 < 256 ∧
    (mult_by_2 input).getD j 0 =
      (2 * input.getD j 0) % 256 ^^^ (if 128 ≤ input.getD (j - 1) 0 then 1 else 0) := by
  refine ⟨by omega, by omega, ?_⟩
  rw [mult_by_2_getD_succ input j h1 h2]
  by_cases h : 128 ≤ input.getD (j - 1) 0
  · rw [if_pos h]
    exact byte_even_add_one_eq_xor _ (by omega) (by omega)
  · rw [if_neg h, Nat.xor_zero]
    omega

/-- C10 witness: instantiated at byte 1 of a block whose byte 0 sets the
carry. -/
theorem c10_carry_increment_no_wrap_witness :
    (2 * ([200,201,0,0,0,0,0,0,0,0,0,0,0,0,0,0] : Block).getD 1 0) % 256 % 2 = 0 ∧
    (2 * ([200,201,0,0,0,0,0,0,0,0,0,0,0,0,0,0] : Block).getD 1 0) % 256 + 1 < 256 ∧
    (mult_by_2 [200,201,0,0,0,0,0,0,0,0,0,0,0,0,0,0]).getD 1 0 =
      (2 * ([200,201,0,0,0,0,0,0,0,0,0,0,0,0,0,0] : Block).getD 1 0) % 256 ^^^
        (if 128 ≤ ([200,201,0,0,0,0,0,0,0,0,0,0,0,0,0,0] : Block).getD (1 - 1) 0
          then 1 else 0) :=
  c10_carry_increment_no_wrap [200,201,0,0,0,0,0,0,0,0,0,0,0,0,0,0] 1 (by omega) (by decide)

/-! ## Claim C6, counterexample: 128-fold doubling is not the identity -/

/-- C6 counterexample: the nonzero block `(1, 0, …, 0)` does not return to
itself after 128 doublings (the claim asserts every nonzero block does). -/
theorem c6_counterexample :
    Bytes16 [1,0,0,0,0,0,0,0,0,0,0,0,0,0,0,0] ∧
    ([1,0,0,0,0,0,0,0,0,0,0,0,0,0,0,0] : Block) ≠ zeroBlock ∧
    mult_by_2^[128] [1,0,0,0,0,0,0,0,0,0,0,0,0,0,0,0] ≠
      [1,0,0,0,0,0,0,0,0,0,0,0,0,0,0,0] :=
  ⟨by decide, by decide, by decide⟩

theorem rng_length (a k : Nat) : (rng a k).length = k := by
  induction k generalizing a with
  | zero => rfl
  | succ k ih => simp [rng, ih]

theorem getD_set_self {α : Type} (l : List α) (i : Nat) (h : i < l.length) (a d : α) :
    (l.set i a).getD i d = a := by
  induction l generalizing i with
  | nil => simp at h
  | cons x xs ih =>
      cases i with
      | zero => rfl
      | succ i => exact ih i (by simpa using h)

theorem getD_set_ne {α : Type} (l : List α) (i j : Nat) (h : i ≠ j) (a d : α) :
    (l.set i a).getD j d = l.getD j d := by
  induction l generalizing i j with
  | nil => rfl
  | cons x xs ih =>
      cases i with
      | zero =>
          cases j with
          | zero => exact absurd rfl h
          | succ j => rfl
      | succ i =>
          cases j with
          | zero => rfl
          | succ j => exact ih i j (by omega)

theorem sweep_fst_length {σ : Type} (g : Nat → Block → σ → Block) (upd : σ → σ)
    (js : List Nat) : ∀ (c : Buf) (st : σ),
    ((sweep g upd js (c, st)).1).length = c.length := by
  induction js with
  | nil => intro c st; rfl
  | cons j js ih =>
      intro c st
      rw [sweep, ih]
      simp

theorem sweep_getD_lt {σ : Type} (g : Nat → Block → σ → Block) (upd : σ → σ) :
    ∀ (k a j : Nat) (c : Buf) (st : σ), j < a →
    ((sweep g upd (rng a k) (c, st)).1).getD j zeroBlock = c.getD j zeroBlock := by
  intro k
  induction k with
  | zero => intro a j c st h; rfl
  | succ k ih =>
      intro a j c st h
      rw [rng, sweep, ih (a + 1) j _ _ (by omega), getD_set_ne _ _ _ (by omega)]

theorem sweep_getD_in {σ : Type} (g : Nat → Block → σ → Block) (upd : σ → σ) :
    ∀ (k a j : Nat) (c : Buf) (st : σ), a ≤ j → j < a + k → a + k ≤ c.length →
    ((sweep g upd (rng a k) (c, st)).1).getD j zeroBlock
      = g j (c.getD j zeroBlock) (upd^[j - a] st) := by
  intro k
  induction k with
  | zero => intro a j c st h1 h2 h3; omega
  | succ k ih =>
      intro a j c st h1 h2 h3
      rw [rng, sweep]
      by_cases hja : j = a
      · subst hja
        rw [sweep_getD_lt g upd k (j + 1) j _ _ (by omega),
          getD_set_self _ _ (by omega), Nat.sub_self, Function.iterate_zero_apply]
      · rw [ih (a + 1) j _ _ (by omega) (by omega) (by simp; omega),
          getD_set_ne _ _ _ (by omega),
          show j - a = (j - (a + 1)) + 1 by omega, Function.iterate_succ_apply]

/-! ## XOR-block algebra -/

theorem xor_blocks_length (a b : Block) :
    (xor_blocks a b).length = min a.length b.length := by
  simp [xor_blocks]

theorem xor_blocks_cons (x y : Nat) (as bs : List Nat) :
    xor_blocks (x :: as) (y :: bs) = (x ^^^ y) :: xor_blocks as bs := rfl

theorem xor_blocks_nil_left (b : Block) : xor_blocks [] b = [] := rfl

theorem xor_blocks_nil_right (a : Block) : xor_blocks a [] = [] := by
  cases a <;> rfl

theorem xor_blocks_assoc (a b c : Block) :
    xor_blocks (xor_blocks a b) c = xor_blocks a (xor_blocks b c) := by
  induction a generalizing b c with
  | nil => simp [xor_blocks_nil_left]
  | cons x as ih =>
      cases b with
      | nil => simp [xor_blocks_nil_left, xor_blocks_nil_right]
      | cons y bs =>
          cases c with
          | nil => simp [xor_blocks_nil_right]
          | cons z cs => simp [xor_blocks_cons, Nat.xor_assoc, ih]

theorem xor_blocks_comm (a b : Block) : xor_blocks a b = xor_blocks b a := by
  induction a generalizing b with
  | nil => cases b <;> simp [xor_blocks_nil_left, xor_blocks_nil_right]
  | cons x as ih =>
      cases b with
      | nil => simp [xor_blocks_nil_left, xor_blocks_nil_right]
      | cons y bs => simp [xor_blocks_cons, Nat.xor_comm x y, ih]

theorem xor_blocks_cancel (a b : Block) (h : a.length ≤ b.length) :
    xor_blocks (xor_blocks a b) b = a := by
  induction a generalizing b with
  | nil => simp [xor_blocks_nil_left]
  | cons x as ih =>
      cases b with
      | nil => simp at h
      | cons y bs =>
          rw [xor_blocks_cons, xor_blocks_cons, Nat.xor_cancel_right,
            ih bs (by simpa using h)]

theorem xor_blocks_self (a : Block) : xor_blocks a a = List.replicate a.length 0 := by
  induction a with
  | nil => rfl
  | cons x as ih => simp [xor_blocks_cons, Nat.xor_self, List.replicate_succ, ih]

theorem replicate_xor_blocks (b : Block) : ∀ n, b.length ≤ n →
    xor_blocks (List.replicate n 0) b = b := by
  induction b with
  | nil => intro n h; simp [xor_blocks]
  | cons y bs ih =>
      intro n h
      cases n with
      | zero => simp at h
      | succ n =>
          simp only [List.replicate_succ, xor_blocks, List.zipWith_cons_cons, Nat.zero_xor]
          rw [← xor_blocks, ih n (by simpa using h)]

theorem zero_xor_blocks (b : Block) (h : b.length ≤ 16) : xor_blocks zeroBlock b = b :=
  replicate_xor_blocks b 16 h

theorem xor_blocks_zero (a : Block) (h : a.length ≤ 16) : xor_blocks a zeroBlock = a := by
  rw [xor_blocks_comm]
  exact zero_xor_blocks a h

theorem xor_cancel_tXt (t x : Block) (ht : t.length = 16) (hx : x.length = 16) :
    xor_blocks t (xor_blocks x t) = x := by
  rw [xor_blocks_comm x t, ← xor_blocks_assoc, xor_blocks_self, ht]
  exact zero_xor_blocks x (by omega)

theorem iterate_mult_by_2_length (n : Nat) (b : Block) :
    (mult_by_2^[n] b).length = b.length := by
  induction n with
  | zero => rfl
  | succ n ih => rw [Function.iterate_succ_apply', mult_by_2_length, ih]

/-! ## Closed forms for the phases -/

theorem phase1_length (E : Block → Block) (p c : Buf) :
    (phase1 E p c).length = c.length :=
  sweep_fst_length _ _ _ c _

theorem phase1_getD (E : Block → Block) (p c : Buf) (hc : c.length = 32)
    (j : Nat) (hj : j < 32) :
    (phase1 E p c).getD j zeroBlock
      = E (xor_blocks (p.getD j zeroBlock) (mult_by_2^[j + 1] (E zeroBlock))) := by
  unfold phase1
  rw [sweep_getD_in _ _ 32 0 j c _ (by omega) (by omega) (by omega), Nat.sub_zero,
    ← Function.iterate_succ_apply]

theorem phase2_length (m : Block) (buf : Buf) :
    (phase2 m buf).length = buf.length :=
  sweep_fst_length _ _ _ buf _

theorem phase2_getD_zero (m : Block) (buf : Buf) :
    (phase2 m buf).getD 0 zeroBlock = buf.getD 0 zeroBlock :=
  sweep_getD_lt _ _ 31 1 0 buf m (by omega)

theorem phase2_getD (m : Block) (buf : Buf) (hb : buf.length = 32)
    (j : Nat) (h1 : 1 ≤ j) (h2 : j < 32) :
    (phase2 m buf).getD j zeroBlock
      = xor_blocks (buf.getD j zeroBlock) (mult_by_2^[j] m) := by
  unfold phase2
  rw [sweep_getD_in _ _ 31 1 j buf m h1 (by omega) (by omega),
    ← Function.iterate_succ_apply' mult_by_2 (j - 1) m,
    show Nat.succ (j - 1) = j by omega]

theorem foldl_set0_length (k a : Nat) : ∀ b : Buf,
    ((rng a k).foldl
      (fun b j => b.set 0 (xor_blocks (b.getD 0 zeroBlock) (b.getD j zeroBlock)))
      b).length = b.length := by
  induction k generalizing a with
  | zero => intro b; rfl
  | succ k ih =>
      intro b
      rw [rng, List.foldl_cons, ih (a + 1)]
      simp

theorem mixC0_length (mc t : Block) (buf : Buf) :
    (mixC0 mc t buf).length = buf.length := by
  unfold mixC0
  rw [foldl_set0_length]
  simp

theorem foldl_set0_getD_pos (k a : Nat) : ∀ (b : Buf) (j : Nat), 1 ≤ j →
    ((rng a k).foldl
      (fun b j => b.set 0 (xor_blocks (b.getD 0 zeroBlock) (b.getD j zeroBlock)))
      b).getD j zeroBlock = b.getD j zeroBlock := by
  induction k generalizing a with
  | zero => intro b j hj; rfl
  | succ k ih =>
      intro b j hj
      rw [rng, List.foldl_cons, ih (a + 1) _ j hj, getD_set_ne _ _ _ (by omega)]

theorem mixC0_getD_pos (mc t : Block) (buf : Buf) (j : Nat) (h1 : 1 ≤ j) :
    (mixC0 mc t buf).getD j zeroBlock = buf.getD j zeroBlock := by
  unfold mixC0
  rw [foldl_set0_getD_pos 31 1 _ j h1, getD_set_ne _ _ _ (by omega)]

theorem cccBuf_length (E : Block → Block) (t : Block) (p c : Buf) :
    (cccBuf E t p c).length = c.length := by
  unfold cccBuf
  rw [mixC0_length, phase2_length, phase1_length]

theorem eme_32_aes_enc_length (E : Block → Block) (t : Block) (p c : Buf) :
    (eme_32_aes_enc E t p c).length = c.length := by
  unfold eme_32_aes_enc phase3
  rw [sweep_fst_length, cccBuf_length]

theorem xorSumR_succ (buf : Buf) (a k : Nat) :
    xorSumR buf a (k + 1)
      = xor_blocks (buf.getD a zeroBlock) (xorSumR buf (a + 1) k) := rfl

theorem xorSumR_congr (b1 b2 : Buf) (k : Nat) : ∀ a : Nat,
    (∀ j, a ≤ j → j < a + k → b1.getD j zeroBlock = b2.getD j zeroBlock) →
    xorSumR b1 a k = xorSumR b2 a k := by
  induction k with
  | zero => intro a h; rfl
  | succ k ih =>
      intro a h
      rw [xorSumR_succ, xorSumR_succ, h a (by omega) (by omega),
        ih (a + 1) (fun j hj1 hj2 => h j (by omega) (by omega))]

theorem foldl_xor_acc (buf : Buf) (k : Nat) : ∀ (a : Nat) (acc : Block),
    acc.length ≤ 16 →
    (rng a k).foldl (fun mp j => xor_blocks mp (buf.getD j zeroBlock)) acc
      = xor_blocks acc (xorSumR buf a k) := by
  induction k with
  | zero =>
      intro a acc hacc
      exact (xor_blocks_zero acc hacc).symm
  | succ k ih =>
      intro a acc hacc
      rw [rng, List.foldl_cons,
        ih (a + 1) _ (by rw [xor_blocks_length]; omega),
        xor_blocks_assoc, ← xorSumR_succ]

theorem mixMP_eq (t : Block) (buf : Buf) (ht : t.length = 16) :
    mixMP t buf = xor_blocks t (xorSumR buf 0 32) := by
  unfold mixMP
  have h32 : xorSumR buf 0 32 = xor_blocks (buf.getD 0 zeroBlock) (xorSumR buf 1 31) :=
    xorSumR_succ buf 0 31
  rw [foldl_xor_acc buf 31 1 _ (by rw [xor_blocks_length]; omega), h32,
    ← xor_blocks_assoc, xor_blocks_comm t (buf.getD 0 zeroBlock)]

theorem foldl_set0_getD_zero (k : Nat) : ∀ (a : Nat) (b : Buf), 1 ≤ a →
    0 < b.length → (b.getD 0 zeroBlock).length ≤ 16 →
    ((rng a k).foldl
      (fun b j => b.set 0 (xor_blocks (b.getD 0 zeroBlock) (b.getD j zeroBlock)))
      b).getD 0 zeroBlock
      = xor_blocks (b.getD 0 zeroBlock) (xorSumR b a k) := by
  induction k with
  | zero =>
      intro a b ha hb hl
      exact (xor_blocks_zero _ hl).symm
  | succ k ih =>
      intro a b ha hb hl
      rw [rng, List.foldl_cons,
        ih (a + 1) _ (by omega) (by simpa using hb)
          (by rw [getD_set_self _ _ (by omega), xor_blocks_length]; omega),
        getD_set_self _ _ (by omega),
        xorSumR_congr _ b k (a + 1)
          (fun j hj1 hj2 => getD_set_ne _ _ _ (by omega) _ _),
        xor_blocks_assoc, ← xorSumR_succ]

theorem mixC0_getD_zero (mc t : Block) (buf : Buf) (ht : t.length = 16)
    (hb : 0 < buf.length) :
    (mixC0 mc t buf).getD 0 zeroBlock
      = xor_blocks (xor_blocks mc t) (xorSumR buf 1 31) := by
  unfold mixC0
  rw [foldl_set0_getD_zero 31 1 _ (by omega) (by simpa using hb)
      (by rw [getD_set_self _ _ (by omega), xor_blocks_length]; omega),
    getD_set_self _ _ (by omega),
    xorSumR_congr _ buf 31 1 (fun j hj1 hj2 => getD_set_ne _ _ _ (by omega) _ _)]

theorem phase3_getD (E : Block → Block) (buf : Buf) (hb : buf.length = 32)
    (j : Nat) (hj : j < 32) :
    (phase3 E buf).getD j zeroBlock
      = xor_blocks (E (buf.getD j zeroBlock)) (mult_by_2^[j + 1] (E zeroBlock)) := by
  unfold phase3
  rw [sweep_getD_in _ _ 32 0 j buf _ (by omega) (by omega) (by omega), Nat.sub_zero,
    ← Function.iterate_succ_apply]

theorem buf_ext (a b : Buf) (ha : a.length = 32) (hb : b.length = 32)
    (h : ∀ j, j < 32 → a.getD j zeroBlock = b.getD j zeroBlock) : a = b := by
  apply List.ext_getElem (by omega)
  intro i h1 h2
  have hi := h i (by omega)
  rwa [List.getD_eq_getElem _ _ h1, List.getD_eq_getElem _ _ h2] at hi

/-! ## Claim C3: the mixing step -/

/-- C3: after the mixing step, `MP = T XOR (XOR-sum of all PPP blocks)`,
blocks `1..31` carry `CCC[j] = PPP[j] XOR 2^j (MP XOR MC)`, and block 0 is
`CCC[0] = MC XOR T XOR (XOR-sum of CCC[1..31])`. -/
theorem c3_mixing_step_closed_form (E : Block → Block) (t : Block) (p c : Buf)
    (hc : c.length = 32) (ht : t.length = 16) :
    mpVal E t p c = xor_blocks t (xorSumR (phase1 E p c) 0 32) ∧
    (∀ j, 1 ≤ j → j < 32 →
      (cccBuf E t p c).getD j zeroBlock
        = xor_blocks ((phase1 E p c).getD j zeroBlock)
            (mult_by_2^[j] (xor_blocks (mpVal E t p c) (mcVal E t p c)))) ∧
    (cccBuf E t p c).getD 0 zeroBlock
      = xor_blocks (xor_blocks (mcVal E t p c) t) (xorSumR (cccBuf E t p c) 1 31) := by
  have hlen1 : (phase1 E p c).length = 32 := by rw [phase1_length, hc]
  refine ⟨mixMP_eq t _ ht, ?_, ?_⟩
  · intro j h1 h2
    unfold cccBuf
    rw [mixC0_getD_pos _ _ _ j h1,
      phase2_getD _ _ hlen1 j h1 h2]
  · unfold cccBuf
    rw [mixC0_getD_zero _ _ _ ht (by rw [phase2_length, hlen1]; omega),
      xorSumR_congr _ (cccBuf E t p c) 31 1 ?hcg]
    case hcg =>
      intro j hj1 hj2
      unfold cccBuf
      rw [mixC0_getD_pos _ _ _ j hj1]
    rfl

/-- C3 witness: block 0 of the `CCC` buffer for the identity cipher on the
all-zero message. -/
theorem c3_mixing_step_closed_form_witness :
    (cccBuf (fun b => b) zeroBlock (List.replicate 32 zeroBlock)
        (List.replicate 32 zeroBlock)).getD 0 zeroBlock
      = xor_blocks
          (xor_blocks
            (mcVal (fun b => b) zeroBlock (List.replicate 32 zeroBlock)
              (List.replicate 32 zeroBlock))
            zeroBlock)
          (xorSumR
            (cccBuf (fun b => b) zeroBlock (List.replicate 32 zeroBlock)
              (List.replicate 32 zeroBlock))
            1 31) :=
  (c3_mixing_step_closed_form (fun b => b) zeroBlock (List.replicate 32 zeroBlock)
    (List.replicate 32 zeroBlock) (by simp) (by simp [zeroBlock])).2.2

/-! ## Claim C4: the doubling masks of pass 1 and pass 3 -/

/-- C4: pass 1 masks block `j` with `2^(j+1) * AES-enc(k; 0)` before the block
encryption, and pass 3 masks block `j` with the same `2^(j+1) * AES-enc(k; 0)`
after it: both passes restart from the same `L0 = 2 * AES-enc(k; 0)` and
advance in lockstep with the block index. -/
theorem c4_pass_masks_lockstep (E : Block → Block) (t : Block) (p c : Buf)
    (hc : c.length = 32) (j : Nat) (hj : j < 32) :
    (phase1 E p c).getD j zeroBlock
      = E (xor_blocks (p.getD j zeroBlock) (mult_by_2^[j + 1] (E zeroBlock))) ∧
    (eme_32_aes_enc E t p c).getD j zeroBlock
      = xor_blocks (E ((cccBuf E t p c).getD j zeroBlock))
          (mult_by_2^[j + 1] (E zeroBlock)) := by
  refine ⟨phase1_getD E p c hc j hj, ?_⟩
  unfold eme_32_aes_enc
  exact phase3_getD E _ (by rw [cccBuf_length, hc]) j hj

/-- C4 witness: block 7 for the identity cipher on the all-zero message. -/
theorem c4_pass_masks_lockstep_witness :
    (phase1 (fun b => b) (List.replicate 32 zeroBlock)
        (List.replicate 32 zeroBlock)).getD 7 zeroBlock
      = (fun b => b)
          (xor_blocks ((List.replicate 32 zeroBlock).getD 7 zeroBlock)
            (mult_by_2^[7 + 1] ((fun b => b) zeroBlock))) :=
  (c4_pass_masks_lockstep (fun b => b) zeroBlock (List.replicate 32 zeroBlock)
    (List.replicate 32 zeroBlock) (by simp) 7 (by omega)).1

/-! ## Claim C8: the result does not depend on the initial output buffer -/

/-- C8: `eme_32_aes_enc` is a function of the cipher, tweak and plaintext
only: two runs from different initial output buffers produce the same
ciphertext. -/
theorem c8_output_buffer_independence (E : Block → Block) (t : Block) (p : Buf)
    (c1 c2 : Buf) (h1 : c1.length = 32) (h2 : c2.length = 32) :
    eme_32_aes_enc E t p c1 = eme_32_aes_enc E t p c2 := by
  have hp : phase1 E p c1 = phase1 E p c2 := by
    apply buf_ext _ _ (by rw [phase1_length, h1]) (by rw [phase1_length, h2])
    intro j hj
    rw [phase1_getD E p c1 h1 j hj, phase1_getD E p c2 h2 j hj]
  unfold eme_32_aes_enc cccBuf mcVal mpVal
  rw [hp]

/-- C8 witness: all-zero and all-one initial buffers give the same result. -/
theorem c8_output_buffer_independence_witness :
    eme_32_aes_enc (fun b => b) zeroBlock (List.replicate 32 zeroBlock)
        (List.replicate 32 zeroBlock)
      = eme_32_aes_enc (fun b => b) zeroBlock (List.replicate 32 zeroBlock)
          (List.replicate 32 (List.replicate 16 1)) :=
  c8_output_buffer_independence (fun b => b) zeroBlock (List.replicate 32 zeroBlock)
    (List.replicate 32 zeroBlock) (List.replicate 32 (List.replicate 16 1))
    (by simp) (by simp)

theorem decPassA_length (E D : Block → Block) (c : Buf) :
    (decPassA E D c).length = c.length :=
  sweep_fst_length _ _ _ c _

theorem decPassA_getD (E D : Block → Block) (c : Buf) (hc : c.length = 32)
    (j : Nat) (hj : j < 32) :
    (decPassA E D c).getD j zeroBlock
      = D (xor_blocks (c.getD j zeroBlock) (mult_by_2^[j + 1] (E zeroBlock))) := by
  unfold decPassA
  rw [sweep_getD_in _ _ 32 0 j c _ (by omega) (by omega) (by omega), Nat.sub_zero,
    ← Function.iterate_succ_apply]

theorem decPassC_length (E D : Block → Block) (buf : Buf) :
    (decPassC E D buf).length = buf.length :=
  sweep_fst_length _ _ _ buf _

theorem decPassC_getD (E D : Block → Block) (buf : Buf) (hb : buf.length = 32)
    (j : Nat) (hj : j < 32) :
    (decPassC E D buf).getD j zeroBlock
      = xor_blocks (D (buf.getD j zeroBlock)) (mult_by_2^[j + 1] (E zeroBlock)) := by
  unfold decPassC
  rw [sweep_getD_in _ _ 32 0 j buf _ (by omega) (by omega) (by omega), Nat.sub_zero,
    ← Function.iterate_succ_apply]

theorem xorSumR_length (buf : Buf) (k : Nat) : ∀ a : Nat,
    (∀ j, a ≤ j → j < a + k → (buf.getD j zeroBlock).length = 16) →
    (xorSumR buf a k).length = 16 := by
  induction k with
  | zero =>
      intro a h
      simp [xorSumR, rng, zeroBlock]
  | succ k ih =>
      intro a h
      rw [xorSumR_succ, xor_blocks_length, h a (by omega) (by omega),
        ih (a + 1) (fun j h1 h2 => h j (by omega) (by omega))]
      omega

/-! ## Claim C1: decrypt inverts encrypt -/

/-- C1: for any block-cipher pair `(E, D)` that invert each other on 16-byte
blocks, decrypting the encryption of a 32-block message under any 16-byte
tweak returns the message. -/
theorem c1_decrypt_encrypt_id (E D : Block → Block) (t : Block) (p c : Buf)
    (hDE : ∀ b : Block, b.length = 16 → D (E b) = b)
    (hE : ∀ b : Block, b.length = 16 → (E b).length = 16)
    (ht : t.length = 16) (hp : p.length = 32)
    (hpb : ∀ b ∈ p, b.length = 16) (hc : c.length = 32) :
    eme_32_aes_dec E D t (eme_32_aes_enc E t p c) = p := by
  have hzb : (zeroBlock : Block).length = 16 := by simp [zeroBlock]
  have hEz : (E zeroBlock).length = 16 := hE _ hzb
  have hl16 : ∀ j : Nat, (mult_by_2^[j] (E zeroBlock)).length = 16 := fun j => by
    rw [iterate_mult_by_2_length, hEz]
  have hp16 : ∀ j, j < 32 → (p.getD j zeroBlock).length = 16 := by
    intro j hj
    rw [List.getD_eq_getElem _ _ (by omega)]
    exact hpb _ (List.getElem_mem _)
  have hc1len : (phase1 E p c).length = 32 := by rw [phase1_length, hc]
  have hc1j : ∀ j, j < 32 → (phase1 E p c).getD j zeroBlock
      = E (xor_blocks (p.getD j zeroBlock) (mult_by_2^[j + 1] (E zeroBlock))) :=
    fun j hj => phase1_getD E p c hc j hj
  have hc1j16 : ∀ j, j < 32 → ((phase1 E p c).getD j zeroBlock).length = 16 := by
    intro j hj
    rw [hc1j j hj]
    exact hE _ (by rw [xor_blocks_length, hp16 j hj, hl16]; omega)
  have hS1 : (xorSumR (phase1 E p c) 1 31).length = 16 :=
    xorSumR_length _ 31 1 (fun j h1 h2 => hc1j16 j (by omega))
  have hS0 : (xorSumR (phase1 E p c) 0 32).length = 16 :=
    xorSumR_length _ 32 0 (fun j h1 h2 => hc1j16 j (by omega))
  have hmp : mpVal E t p c = xor_blocks t (xorSumR (phase1 E p c) 0 32) :=
    mixMP_eq t _ ht
  have hmp16 : (mpVal E t p c).length = 16 := by
    rw [hmp, xor_blocks_length, ht, hS0]; omega
  have hmc16 : (mcVal E t p c).length = 16 := hE _ hmp16
  have hm16 : (xor_blocks (mpVal E t p c) (mcVal E t p c)).length = 16 := by
    rw [xor_blocks_length, hmp16, hmc16]; omega
  have hmj16 : ∀ j : Nat,
      (mult_by_2^[j] (xor_blocks (mpVal E t p c) (mcVal E t p c))).length = 16 :=
    fun j => by rw [iterate_mult_by_2_length, hm16]
  have hcccLen : (cccBuf E t p c).length = 32 := by rw [cccBuf_length, hc]
  have hcccPos : ∀ j, 1 ≤ j → j < 32 → (cccBuf E t p c).getD j zeroBlock
      = xor_blocks ((phase1 E p c).getD j zeroBlock)
          (mult_by_2^[j] (xor_blocks (mpVal E t p c) (mcVal E t p c))) := by
    intro j h1 h2
    unfold cccBuf
    rw [mixC0_getD_pos _ _ _ j h1, phase2_getD _ _ hc1len j h1 h2]
  have hcccPos16 : ∀ j, 1 ≤ j → j < 32 →
      ((cccBuf E t p c).getD j zeroBlock).length = 16 := by
    intro j h1 h2
    rw [hcccPos j h1 h2, xor_blocks_length, hc1j16 j h2, hmj16]; omega
  have hSc : (xorSumR (cccBuf E t p c) 1 31).length = 16 :=
    xorSumR_length _ 31 1 (fun j h1 h2 => hcccPos16 j (by omega) (by omega))
  have hccc0 : (cccBuf E t p c).getD 0 zeroBlock
      = xor_blocks (xor_blocks (mcVal E t p c) t)
          (xorSumR (cccBuf E t p c) 1 31) := by
    unfold cccBuf
    rw [mixC0_getD_zero _ _ _ ht (by rw [phase2_length, hc1len]; omega),
      xorSumR_congr _ (cccBuf E t p c) 31 1 ?hcg]
    case hcg =>
      intro j hj1 hj2
      unfold cccBuf
      rw [mixC0_getD_pos _ _ _ j hj1]
    rfl
  have hccc016 : ((cccBuf E t p c).getD 0 zeroBlock).length = 16 := by
    rw [hccc0, xor_blocks_length, xor_blocks_length, hmc16, ht, hSc]; omega
  have hccc16 : ∀ j, j < 32 → ((cccBuf E t p c).getD j zeroBlock).length = 16 := by
    intro j hj
    by_cases hj0 : j = 0
    · subst hj0; exact hccc016
    · exact hcccPos16 j (by omega) hj
  have hyLen : (eme_32_aes_enc E t p c).length = 32 := by
    rw [eme_32_aes_enc_length, hc]
  have hyj : ∀ j, j < 32 → (eme_32_aes_enc E t p c).getD j zeroBlock
      = xor_blocks (E ((cccBuf E t p c).getD j zeroBlock))
          (mult_by_2^[j + 1] (E zeroBlock)) := by
    intro j hj
    unfold eme_32_aes_enc
    exact phase3_getD E _ hcccLen j hj
  have hb1 : decPassA E D (eme_32_aes_enc E t p c) = cccBuf E t p c := by
    apply buf_ext _ _ (by rw [decPassA_length, hyLen]) hcccLen
    intro j hj
    rw [decPassA_getD E D _ hyLen j hj, hyj j hj,
      xor_blocks_cancel (E ((cccBuf E t p c).getD j zeroBlock))
        (mult_by_2^[j + 1] (E zeroBlock))
        (by rw [hE _ (hccc16 j hj), hl16]),
      hDE _ (hccc16 j hj)]
  have hxs : xorSumR (cccBuf E t p c) 0 32 = xor_blocks (mcVal E t p c) t := by
    have h32 : xorSumR (cccBuf E t p c) 0 32
        = xor_blocks ((cccBuf E t p c).getD 0 zeroBlock)
            (xorSumR (cccBuf E t p c) 1 31) := xorSumR_succ _ 0 31
    rw [h32, hccc0,
      xor_blocks_cancel (xor_blocks (mcVal E t p c) t)
        (xorSumR (cccBuf E t p c) 1 31)
        (by rw [xor_blocks_length, hmc16, ht, hSc]; omega)]
  have hmcd : mcDec E D t (eme_32_aes_enc E t p c) = mcVal E t p c := by
    unfold mcDec
    rw [hb1, hxs, xor_cancel_tXt t _ ht hmc16]
  have hmpd : mpDec E D t (eme_32_aes_enc E t p c) = mpVal E t p c := by
    unfold mpDec
    rw [hmcd]
    unfold mcVal
    exact hDE _ hmp16
  have hb2len : (phase2 (xor_blocks (mpVal E t p c) (mcVal E t p c))
      (cccBuf E t p c)).length = 32 := by
    rw [phase2_length, hcccLen]
  have hb2 : ∀ j, 1 ≤ j → j < 32 →
      (phase2 (xor_blocks (mpVal E t p c) (mcVal E t p c))
        (cccBuf E t p c)).getD j zeroBlock
      = (phase1 E p c).getD j zeroBlock := by
    intro j h1 h2
    rw [phase2_getD _ _ hcccLen j h1 h2, hcccPos j h1 h2,
      xor_blocks_cancel ((phase1 E p c).getD j zeroBlock)
        (mult_by_2^[j] (xor_blocks (mpVal E t p c) (mcVal E t p c)))
        (by rw [hc1j16 j h2, hmj16])]
  have hb3 : mixC0 (mpDec E D t (eme_32_aes_enc E t p c)) t
      (phase2
        (xor_blocks (mpDec E D t (eme_32_aes_enc E t p c))
          (mcDec E D t (eme_32_aes_enc E t p c)))
        (decPassA E D (eme_32_aes_enc E t p c)))
      = phase1 E p c := by
    rw [hb1, hmcd, hmpd]
    apply buf_ext _ _ (by rw [mixC0_length, hb2len]) hc1len
    intro j hj
    by_cases hj0 : j = 0
    · subst hj0
      rw [mixC0_getD_zero _ _ _ ht (by rw [hb2len]; omega),
        xorSumR_congr _ (phase1 E p c) 31 1
          (fun i h1 h2 => hb2 i (by omega) (by omega)),
        hmp]
      have h32 : xorSumR (phase1 E p c) 0 32
          = xor_blocks ((phase1 E p c).getD 0 zeroBlock)
              (xorSumR (phase1 E p c) 1 31) := xorSumR_succ _ 0 31
      rw [h32,
        xor_blocks_comm t
          (xor_blocks ((phase1 E p c).getD 0 zeroBlock)
            (xorSumR (phase1 E p c) 1 31)),
        xor_blocks_cancel
          (xor_blocks ((phase1 E p c).getD 0 zeroBlock)
            (xorSumR (phase1 E p c) 1 31))
          t
          (by rw [xor_blocks_length, hc1j16 0 (by omega), hS1, ht]; omega),
        xor_blocks_cancel ((phase1 E p c).getD 0 zeroBlock)
          (xorSumR (phase1 E p c) 1 31)
          (by rw [hc1j16 0 (by omega), hS1])]
    · rw [mixC0_getD_pos _ _ _ j (by omega), hb2 j (by omega) hj]
  unfold eme_32_aes_dec
  rw [hb3]
  apply buf_ext _ _ (by rw [decPassC_length, hc1len]) hp
  intro j hj
  rw [decPassC_getD E D _ hc1len j hj, hc1j j hj,
    hDE _ (by rw [xor_blocks_length, hp16 j hj, hl16]; omega),
    xor_blocks_cancel (p.getD j zeroBlock) (mult_by_2^[j + 1] (E zeroBlock))
      (by rw [hp16 j hj, hl16])]

/-- C1 witness: the identity cipher pair on the all-zero message. -/
theorem c1_decrypt_encrypt_id_witness :
    eme_32_aes_dec (fun b => b) (fun b => b) zeroBlock
        (eme_32_aes_enc (fun b => b) zeroBlock (List.replicate 32 zeroBlock)
          (List.replicate 32 zeroBlock))
      = List.replicate 32 zeroBlock :=
  c1_decrypt_encrypt_id (fun b => b) (fun b => b) zeroBlock
    (List.replicate 32 zeroBlock) (List.replicate 32 zeroBlock)
    (fun b hb => rfl) (fun b hb => hb) (by simp [zeroBlock]) (by simp)
    (by
      intro b hb
      rw [List.eq_of_mem_replicate hb]
      simp [zeroBlock])
    (by simp)

/-! ## Claim C9: number of block-cipher invocations -/

theorem sweepCount_fst {σ : Type} (g : Nat → Block → σ → Block × Nat)
    (upd : σ → σ) (js : List Nat) : ∀ (c : Buf) (st : σ) (n : Nat),
    (sweepCount g upd js (c, st, n)).1
      = (sweep (fun j v s => (g j v s).1) upd js (c, st)).1 := by
  induction js with
  | nil => intro c st n; rfl
  | cons j js ih => intro c st n; rw [sweepCount, sweep, ih]

theorem sweepCount_count {σ : Type} (g : Nat → Block → σ → Block × Nat)
    (upd : σ → σ) (js : List Nat) (hg : ∀ j v s, (g j v s).2 = 1) :
    ∀ (c : Buf) (st : σ) (n : Nat),
    (sweepCount g upd js (c, st, n)).2.2 = n + js.length := by
  induction js with
  | nil => intro c st n; rfl
  | cons j js ih =>
      intro c st n
      rw [sweepCount, ih, hg]
      simp only [List.length_cons]
      omega

theorem eme_32_aes_enc_counted_fst (E : Block → Block) (t : Block) (p c : Buf) :
    (eme_32_aes_enc_counted E t p c).1 = eme_32_aes_enc E t p c := by
  simp only [eme_32_aes_enc_counted]
  rw [sweepCount_fst, sweepCount_fst]
  rfl

theorem eme_32_aes_enc_counted_count (E : Block → Block) (t : Block) (p c : Buf) :
    (eme_32_aes_enc_counted E t p c).2 = 66 := by
  simp only [eme_32_aes_enc_counted]
  rw [sweepCount_count _ _ _ (fun j v s => rfl),
    sweepCount_count _ _ _ (fun j v s => rfl), rng_length]

/-- C9 counterexample: already on the identity cipher and the all-zero
message, one encryption makes more than 32 single-block cipher calls. -/
theorem c9_counterexample :
    ¬((eme_32_aes_enc_counted (fun b => b) zeroBlock (List.replicate 32 zeroBlock)
        (List.replicate 32 zeroBlock)).2 ≤ 32) := by
  decide

/-- C9 amended: every call of the encrypt transform performs exactly 66
single-block cipher invocations (1 for the zero block, 32 in pass 1, 1 for
`MC`, 32 in pass 3); the instrumented transform computes the same
ciphertext. -/
theorem c9_cipher_call_count (E : Block → Block) (t : Block) (p c : Buf) :
    (eme_32_aes_enc_counted E t p c).1 = eme_32_aes_enc E t p c ∧
    (eme_32_aes_enc_counted E t p c).2 = 66 :=
  ⟨eme_32_aes_enc_counted_fst E t p c, eme_32_aes_enc_counted_count E t p c⟩

/-! ## Claim C5: the single error condition -/

/-- C5: an invalid key fails the whole call with the single error kind
`keyError` and no output is produced; any error implies the key was invalid
and is `keyError`; a valid key yields the complete ciphertext. -/
theorem c5_key_error_propagation (withKey : List Nat → Option (Block → Block))
    (k : List Nat) (t : Block) (p c : Buf) :
    (withKey k = none →
      eme_32_aes_enc_checked withKey k t p c = Except.error EmeError.keyError) ∧
    (∀ e, eme_32_aes_enc_checked withKey k t p c = Except.error e →
      withKey k = none ∧ e = EmeError.keyError) ∧
    (∀ E, withKey k = some E →
      eme_32_aes_enc_checked withKey k t p c
        = Except.ok (eme_32_aes_enc E t p c)) := by
  refine ⟨?_, ?_, ?_⟩
  · intro h
    unfold eme_32_aes_enc_checked
    rw [h]
  · intro e he
    unfold eme_32_aes_enc_checked at he
    cases hwk : withKey k with
    | none =>
        cases e
        exact ⟨rfl, rfl⟩
    | some E =>
        rw [hwk] at he
        simp at he
  · intro E hE
    unfold eme_32_aes_enc_checked
    rw [hE]

/-- C5 witness: a key-schedule that rejects every key fails with
`keyError`. -/
theorem c5_key_error_propagation_witness :
    eme_32_aes_enc_checked (fun _ => none) [] zeroBlock
        (List.replicate 32 zeroBlock) (List.replicate 32 zeroBlock)
      = Except.error EmeError.keyError :=
  (c5_key_error_propagation (fun _ => none) [] zeroBlock
    (List.replicate 32 zeroBlock) (List.replicate 32 zeroBlock)).1 rfl

/-! ## Linearity of the doubling over XOR, and the exact 128-fold iterate -/

theorem xor_blocks_getD (a b : Block) (ha : a.length = 16) (hb : b.length = 16)
    (j : Nat) (hj : j < 16) :
    (xor_blocks a b).getD j 0 = a.getD j 0 ^^^ b.getD j 0 := by
  rw [List.getD_eq_getElem _ _ (by rw [xor_blocks_length]; omega),
    List.getD_eq_getElem _ _ (by omega), List.getD_eq_getElem _ _ (by omega)]
  simp [xor_blocks]

theorem two_mul_eq_shiftLeft (w : Nat) : 2 * w = w <<< 1 := by
  rw [Nat.shiftLeft_eq]
  omega

theorem double_mod_xor (u v : Nat) :
    (2 * (u ^^^ v)) % 256 = (2 * u) % 256 ^^^ (2 * v) % 256 := by
  apply Nat.eq_of_testBit_eq
  intro i
  rw [show (256 : Nat) = 2 ^ 8 by norm_num, two_mul_eq_shiftLeft, two_mul_eq_shiftLeft,
    two_mul_eq_shiftLeft]
  simp only [Nat.testBit_mod_two_pow, Nat.testBit_shiftLeft, Nat.testBit_xor]
  cases hu : u.testBit (i - 1) <;> cases hv : v.testBit (i - 1) <;> simp [hu, hv]

theorem byte_msb : ∀ w, w < 256 → (128 ≤ w ↔ w.testBit 7 = true) := by decide

theorem byte_msb_xor (u v : Nat) (hu : u < 256) (hv : v < 256) :
    (128 ≤ (u ^^^ v)) ↔ ¬(128 ≤ u ↔ 128 ≤ v) := by
  have hx : u ^^^ v < 256 := by
    rw [show (256 : Nat) = 2 ^ 8 by norm_num] at hu hv ⊢
    exact Nat.xor_lt_two_pow hu hv
  rw [byte_msb u hu, byte_msb v hv, byte_msb _ hx, Nat.testBit_xor]
  cases u.testBit 7 <;> cases v.testBit 7 <;> simp

theorem carry_if_xor (u v C : Nat) (hu : u < 256) (hv : v < 256) :
    (if 128 ≤ (u ^^^ v) then C else 0)
      = (if 128 ≤ u then C else 0) ^^^ (if 128 ≤ v then C else 0) := by
  by_cases h1 : 128 ≤ u <;> by_cases h2 : 128 ≤ v
  · rw [if_pos h1, if_pos h2, if_neg (by rw [byte_msb_xor u v hu hv]; tauto),
      Nat.xor_self]
  · rw [if_pos h1, if_neg h2, if_pos (by rw [byte_msb_xor u v hu hv]; tauto),
      Nat.xor_zero]
  · rw [if_neg h1, if_pos h2, if_pos (by rw [byte_msb_xor u v hu hv]; tauto),
      Nat.zero_xor]
  · rw [if_neg h1, if_neg h2, if_neg (by rw [byte_msb_xor u v hu hv]; tauto),
      Nat.xor_self]

theorem byte_even_add_bit (m c : Nat) (h1 : m < 256) (h2 : m % 2 = 0) (h3 : c ≤ 1) :
    (m + c) % 256 = m ^^^ c := by
  interval_cases c
  · rw [Nat.add_zero, Nat.mod_eq_of_lt h1, Nat.xor_zero]
  · exact byte_even_add_one_eq_xor m h1 h2

theorem nat_xor4 (w x y z : Nat) :
    (w ^^^ x) ^^^ (y ^^^ z) = (w ^^^ y) ^^^ (x ^^^ z) := by
  rw [Nat.xor_assoc, Nat.xor_assoc, ← Nat.xor_assoc x y z, Nat.xor_comm x y,
    Nat.xor_assoc y x z]

theorem bytes16_mult_by_2 (x : Block) (hx : Bytes16 x) : Bytes16 (mult_by_2 x) := by
  obtain ⟨hl, hb⟩ := hx
  have hlt := getD_lt_256 x hb
  apply bytes16_of_getD _ (by rw [mult_by_2_length, hl])
  intro j hj
  by_cases hj0 : j = 0
  · subst hj0
    rw [mult_by_2_getD_zero x (by intro he; rw [he] at hl; simp at hl)]
    by_cases h : 128 ≤ x.getD 15 0
    · rw [if_pos h]
      exact byte_xor135_lt _ (by omega)
    · rw [if_neg h, Nat.xor_zero]
      omega
  · rw [mult_by_2_getD_succ x j (by omega) (by omega)]
    omega

theorem bytes16_xor_blocks (a b : Block) (ha : Bytes16 a) (hb : Bytes16 b) :
    Bytes16 (xor_blocks a b) := by
  obtain ⟨hal, hab⟩ := ha
  obtain ⟨hbl, hbb⟩ := hb
  apply bytes16_of_getD _ (by rw [xor_blocks_length, hal, hbl]; omega)
  intro j hj
  rw [xor_blocks_getD a b hal hbl j hj,
    show (256 : Nat) = 2 ^ 8 by norm_num]
  exact Nat.xor_lt_two_pow (by have := getD_lt_256 a hab j; omega)
    (by have := getD_lt_256 b hbb j; omega)

theorem mult_by_2_xor (a b : Block) (ha : Bytes16 a) (hb : Bytes16 b) :
    mult_by_2 (xor_blocks a b) = xor_blocks (mult_by_2 a) (mult_by_2 b) := by
  have hal := ha.1
  have hbl := hb.1
  have halt : ∀ j : Nat, a.getD j 0 < 256 := getD_lt_256 a ha.2
  have hblt : ∀ j : Nat, b.getD j 0 < 256 := getD_lt_256 b hb.2
  have hxl : (xor_blocks a b).length = 16 := by rw [xor_blocks_length, hal, hbl]; omega
  have hxg : ∀ j, j < 16 → (xor_blocks a b).getD j 0 = a.getD j 0 ^^^ b.getD j 0 :=
    fun j hj => xor_blocks_getD a b hal hbl j hj
  apply block_ext _ _ (by rw [mult_by_2_length, hxl])
    (by rw [xor_blocks_length, mult_by_2_length, mult_by_2_length, hal, hbl]; omega)
  intro j hj
  rw [xor_blocks_getD _ _ (by rw [mult_by_2_length, hal]) (by rw [mult_by_2_length, hbl])
    j hj]
  by_cases hj0 : j = 0
  · subst hj0
    rw [mult_by_2_getD_zero _ (by intro he; rw [he] at hxl; simp at hxl),
      mult_by_2_getD_zero a (by intro he; rw [he] at hal; simp at hal),
      mult_by_2_getD_zero b (by intro he; rw [he] at hbl; simp at hbl),
      hxg 0 (by omega), hxg 15 (by omega), double_mod_xor,
      carry_if_xor _ _ 135 (halt 15) (hblt 15)]
    exact nat_xor4 _ _ _ _
  · rw [mult_by_2_getD_succ _ j (by omega) (by omega),
      mult_by_2_getD_succ a j (by omega) (by omega),
      mult_by_2_getD_succ b j (by omega) (by omega),
      hxg j (by omega), hxg (j - 1) (by omega)]
    rw [byte_even_add_bit _ _ (by omega) (by omega) (by split <;> omega),
      byte_even_add_bit _ _ (by omega) (by omega) (by split <;> omega),
      byte_even_add_bit _ _ (by omega) (by omega) (by split <;> omega),
      double_mod_xor, carry_if_xor _ _ 1 (halt (j - 1)) (hblt (j - 1))]
    exact nat_xor4 _ _ _ _

theorem bytes16_iterate (n : Nat) (x : Block) (hx : Bytes16 x) :
    Bytes16 (mult_by_2^[n] x) := by
  induction n with
  | zero => exact hx
  | succ n ih =>
      rw [Function.iterate_succ_apply']
      exact bytes16_mult_by_2 _ ih

theorem iterate_mult_by_2_xor (n : Nat) (a b : Block)
    (ha : Bytes16 a) (hb : Bytes16 b) :
    mult_by_2^[n] (xor_blocks a b)
      = xor_blocks (mult_by_2^[n] a) (mult_by_2^[n] b) := by
  induction n with
  | zero => rfl
  | succ n ih =>
      rw [Function.iterate_succ_apply', Function.iterate_succ_apply',
        Function.iterate_succ_apply', ih,
        mult_by_2_xor _ _ (bytes16_iterate n a ha) (bytes16_iterate n b hb)]

theorem xor_blocks_xor4 (w x y z : Block) :
    xor_blocks (xor_blocks w x) (xor_blocks y z)
      = xor_blocks (xor_blocks w y) (xor_blocks x z) := by
  induction w generalizing x y z with
  | nil => simp [xor_blocks_nil_left]
  | cons a as ih =>
      cases x with
      | nil => simp [xor_blocks_nil_left, xor_blocks_nil_right]
      | cons b bs =>
          cases y with
          | nil => simp [xor_blocks_nil_left, xor_blocks_nil_right]
          | cons c cs =>
              cases z with
              | nil => simp [xor_blocks_nil_left, xor_blocks_nil_right]
              | cons d ds =>
                  simp only [xor_blocks_cons]
                  rw [nat_xor4, ih bs cs ds]

theorem mulBy87_xor (a b : Block) (ha : Bytes16 a) (hb : Bytes16 b) :
    mulBy87 (xor_blocks a b) = xor_blocks (mulBy87 a) (mulBy87 b) := by
  unfold mulBy87
  rw [mult_by_2_xor a b ha hb, iterate_mult_by_2_xor 2 a b ha hb,
    iterate_mult_by_2_xor 7 a b ha hb,
    xor_blocks_xor4 a b (mult_by_2 a) (mult_by_2 b),
    xor_blocks_xor4 (mult_by_2^[2] a) (mult_by_2^[2] b)
      (mult_by_2^[7] a) (mult_by_2^[7] b),
    xor_blocks_xor4 (xor_blocks a (mult_by_2 a)) (xor_blocks b (mult_by_2 b))
      (xor_blocks (mult_by_2^[2] a) (mult_by_2^[7] a))
      (xor_blocks (mult_by_2^[2] b) (mult_by_2^[7] b))]

theorem mult_by_2_zeroBlock : mult_by_2 zeroBlock = zeroBlock := by decide

theorem iterate_zeroBlock (n : Nat) : mult_by_2^[n] zeroBlock = zeroBlock := by
  induction n with
  | zero => rfl
  | succ n ih => rw [Function.iterate_succ_apply', ih, mult_by_2_zeroBlock]

theorem mulBy87_zeroBlock : mulBy87 zeroBlock = zeroBlock := by decide

theorem bytes16_zeroBlock : Bytes16 zeroBlock := by decide

theorem bytes16_bigXor (L : List Block) (hL : ∀ b ∈ L, Bytes16 b) :
    Bytes16 (bigXor L) := by
  induction L with
  | nil => exact bytes16_zeroBlock
  | cons b L ih =>
      exact bytes16_xor_blocks _ _ (hL b (by simp))
        (ih (fun x hx => hL x (by simp [hx])))

theorem iterate_bigXor (n : Nat) (L : List Block) (hL : ∀ b ∈ L, Bytes16 b) :
    mult_by_2^[n] (bigXor L) = bigXor (L.map (mult_by_2^[n])) := by
  induction L with
  | nil => exact iterate_zeroBlock n
  | cons b L ih =>
      show mult_by_2^[n] (xor_blocks b (bigXor L)) = _
      rw [iterate_mult_by_2_xor n b (bigXor L) (hL b (by simp))
          (bytes16_bigXor L (fun x hx => hL x (by simp [hx]))),
        ih (fun x hx => hL x (by simp [hx]))]
      rfl

theorem mulBy87_bigXor (L : List Block) (hL : ∀ b ∈ L, Bytes16 b) :
    mulBy87 (bigXor L) = bigXor (L.map mulBy87) := by
  induction L with
  | nil => exact mulBy87_zeroBlock
  | cons b L ih =>
      show mulBy87 (xor_blocks b (bigXor L)) = _
      rw [mulBy87_xor b (bigXor L) (hL b (by simp))
          (bytes16_bigXor L (fun x hx => hL x (by simp [hx]))),
        ih (fun x hx => hL x (by simp [hx]))]
      rfl

theorem basisBit_orbit : ∀ i, i < 16 → ∀ k, k < 8 →
    basisBit i k = mult_by_2^[8 * i + k] (basisBit 0 0) := by decide

theorem bytes16_basisBit : ∀ i, i < 16 → ∀ k, k < 8 → Bytes16 (basisBit i k) := by
  decide

theorem iterate_128_basisBit_base :
    mult_by_2^[128] (basisBit 0 0) = mulBy87 (basisBit 0 0) := by decide

theorem mulBy87_iterate_comm (j : Nat) (x : Block) (hx : Bytes16 x) :
    mult_by_2^[j] (mulBy87 x) = mulBy87 (mult_by_2^[j] x) := by
  unfold mulBy87
  rw [iterate_mult_by_2_xor j _ _
      (bytes16_xor_blocks _ _ hx (bytes16_mult_by_2 _ hx))
      (bytes16_xor_blocks _ _ (bytes16_iterate 2 x hx) (bytes16_iterate 7 x hx)),
    iterate_mult_by_2_xor j x (mult_by_2 x) hx (bytes16_mult_by_2 _ hx),
    iterate_mult_by_2_xor j _ _ (bytes16_iterate 2 x hx) (bytes16_iterate 7 x hx)]
  have h1 : mult_by_2^[j] (mult_by_2 x) = mult_by_2 (mult_by_2^[j] x) := by
    rw [← Function.iterate_succ_apply, Function.iterate_succ_apply']
  have h2 : mult_by_2^[j] (mult_by_2^[2] x) = mult_by_2^[2] (mult_by_2^[j] x) := by
    rw [← Function.iterate_add_apply, Nat.add_comm, Function.iterate_add_apply]
  have h7 : mult_by_2^[j] (mult_by_2^[7] x) = mult_by_2^[7] (mult_by_2^[j] x) := by
    rw [← Function.iterate_add_apply, Nat.add_comm, Function.iterate_add_apply]
  rw [h1, h2, h7]

theorem iterate_128_basisBit (i : Nat) (hi : i < 16) (k : Nat) (hk : k < 8) :
    mult_by_2^[128] (basisBit i k) = mulBy87 (basisBit i k) := by
  rw [basisBit_orbit i hi k hk, ← Function.iterate_add_apply,
    Nat.add_comm 128 (8 * i + k), Function.iterate_add_apply,
    iterate_128_basisBit_base,
    mulBy87_iterate_comm (8 * i + k) (basisBit 0 0) (by decide)]

theorem zeroBlock_getD (r : Nat) : zeroBlock.getD r 0 = 0 := by
  by_cases h : r < 16
  · rw [List.getD_eq_getElem _ _ (by simp [zeroBlock]; omega)]
    simp only [zeroBlock, List.getElem_replicate]
  · rw [List.getD_eq_default _ _ (by simp [zeroBlock]; omega)]

theorem basisBit_getD (i k r : Nat) (hr : r < 16) :
    (basisBit i k).getD r 0 = if r = i then 2 ^ k else 0 := by
  rw [basisBit, ofFn16_getD _ r hr]

theorem byteBlock_getD (i v r : Nat) (hr : r < 16) :
    (byteBlock i v).getD r 0 = if r = i then v else 0 := by
  rw [byteBlock, ofFn16_getD _ r hr]

theorem bytes16_byteBlock (i v : Nat) (hv : v < 256) : Bytes16 (byteBlock i v) := by
  apply bytes16_of_getD _ (by simp [byteBlock])
  intro j hj
  rw [byteBlock_getD i v j hj]
  split <;> omega

theorem bigXor_length (L : List Block) (hL : ∀ b ∈ L, b.length = 16) :
    (bigXor L).length = 16 := by
  induction L with
  | nil => simp [bigXor, zeroBlock]
  | cons b L ih =>
      show (xor_blocks b (bigXor L)).length = 16
      rw [xor_blocks_length, hL b (by simp), ih (fun x hx => hL x (by simp [hx]))]
      omega

theorem bigXor_getD (L : List Block) (hL : ∀ b ∈ L, b.length = 16)
    (r : Nat) (hr : r < 16) :
    (bigXor L).getD r 0 = L.foldr (fun b acc => b.getD r 0 ^^^ acc) 0 := by
  induction L with
  | nil => exact zeroBlock_getD r
  | cons b L ih =>
      show (xor_blocks b (bigXor L)).getD r 0 = _
      rw [xor_blocks_getD b (bigXor L) (hL b (by simp))
          (bigXor_length L (fun x hx => hL x (by simp [hx]))) r hr,
        ih (fun x hx => hL x (by simp [hx]))]
      rfl

theorem byte_bits : ∀ v, v < 256 →
    (if v.testBit 0 = true then 2 ^ 0 else 0) ^^^
      ((if v.testBit 1 = true then 2 ^ 1 else 0) ^^^
        ((if v.testBit 2 = true then 2 ^ 2 else 0) ^^^
          ((if v.testBit 3 = true then 2 ^ 3 else 0) ^^^
            ((if v.testBit 4 = true then 2 ^ 4 else 0) ^^^
              ((if v.testBit 5 = true then 2 ^ 5 else 0) ^^^
                ((if v.testBit 6 = true then 2 ^ 6 else 0) ^^^
                  ((if v.testBit 7 = true then 2 ^ 7 else 0) ^^^ 0))))))) = v := by
  decide

theorem byteBlock_bits (i : Nat) (v : Nat) (hv : v < 256) :
    byteBlock i v = bigXor ((rng 0 8).map
      (fun k => if v.testBit k = true then basisBit i k else zeroBlock)) := by
  have hL16 : ∀ b ∈ (rng 0 8).map
      (fun k => if v.testBit k = true then basisBit i k else zeroBlock),
      b.length = 16 := by
    intro b hb
    obtain ⟨k, hk, rfl⟩ := List.mem_map.mp hb
    by_cases h : v.testBit k = true
    · rw [if_pos h]; simp [basisBit]
    · rw [if_neg h]; simp [zeroBlock]
  apply block_ext _ _ (by simp [byteBlock]) (bigXor_length _ hL16)
  intro r hr
  rw [byteBlock_getD i v r hr, bigXor_getD _ hL16 r hr,
    show rng 0 8 = [0,1,2,3,4,5,6,7] from rfl]
  simp only [List.map_cons, List.map_nil, List.foldr_cons, List.foldr_nil]
  simp only [apply_ite (fun b : Block => List.getD b r 0)]
  simp only [basisBit_getD i 0 r hr, basisBit_getD i 1 r hr, basisBit_getD i 2 r hr,
    basisBit_getD i 3 r hr, basisBit_getD i 4 r hr, basisBit_getD i 5 r hr,
    basisBit_getD i 6 r hr, basisBit_getD i 7 r hr, zeroBlock_getD]
  by_cases hri : r = i
  · iterate 9 rw [if_pos hri]
    exact (byte_bits v hv).symm
  · iterate 9 rw [if_neg hri]
    simp

theorem mem_rng (k : Nat) : ∀ (a n : Nat), k ∈ rng a n → a ≤ k ∧ k < a + n := by
  intro a n
  induction n generalizing a with
  | zero => intro h; simp [rng] at h
  | succ n ih =>
      intro h
      rw [rng] at h
      rcases List.mem_cons.mp h with h1 | h2
      · omega
      · have := ih (a + 1) h2
        omega

theorem map_congr_mem {α β : Type} (L : List α) (f g : α → β)
    (h : ∀ a ∈ L, f a = g a) : L.map f = L.map g := by
  induction L with
  | nil => rfl
  | cons a L ih =>
      simp only [List.map_cons, h a (by simp),
        ih (fun x hx => h x (by simp [hx]))]

theorem iterate_128_byteBlock (i : Nat) (hi : i < 16) (v : Nat) (hv : v < 256) :
    mult_by_2^[128] (byteBlock i v) = mulBy87 (byteBlock i v) := by
  rw [byteBlock_bits i v hv]
  have hmem : ∀ b ∈ (rng 0 8).map
      (fun k => if v.testBit k = true then basisBit i k else zeroBlock),
      Bytes16 b := by
    intro b hb
    obtain ⟨k, hk, rfl⟩ := List.mem_map.mp hb
    by_cases h : v.testBit k = true
    · rw [if_pos h]
      exact bytes16_basisBit i hi k (by have := mem_rng k 0 8 hk; omega)
    · rw [if_neg h]
      exact bytes16_zeroBlock
  rw [iterate_bigXor 128 _ hmem, mulBy87_bigXor _ hmem, List.map_map, List.map_map]
  congr 1
  apply map_congr_mem
  intro k hk
  have hkb := mem_rng k 0 8 hk
  show mult_by_2^[128] (if v.testBit k = true then basisBit i k else zeroBlock)
    = mulBy87 (if v.testBit k = true then basisBit i k else zeroBlock)
  by_cases h : v.testBit k = true
  · rw [if_pos h]
    exact iterate_128_basisBit i hi k (by omega)
  · rw [if_neg h, iterate_zeroBlock, mulBy87_zeroBlock]

theorem block_decomp (x : Block) (hx : Bytes16 x) :
    x = bigXor ((rng 0 16).map (fun i => byteBlock i (x.getD i 0))) := by
  have hL16 : ∀ b ∈ (rng 0 16).map (fun i => byteBlock i (x.getD i 0)),
      b.length = 16 := by
    intro b hb
    obtain ⟨i, hi, rfl⟩ := List.mem_map.mp hb
    simp [byteBlock]
  apply block_ext _ _ hx.1 (bigXor_length _ hL16)
  intro r hr
  rw [bigXor_getD _ hL16 r hr, show rng 0 16 = [0,1,2,3,4,5,6,7,8,9,10,11,12,13,14,15] from rfl]
  simp only [List.map_cons, List.map_nil, List.foldr_cons, List.foldr_nil]
  simp only [fun i v => byteBlock_getD i v r hr]
  interval_cases r <;> simp

/-- C6 amended: for every 16-byte block, 128 applications of `mult_by_2` do
not return the block itself but its field product with `0x87`
(`x XOR 2x XOR 4x XOR 128x`), the remainder of `x^128` modulo the reduction
polynomial — so the claimed subgroup-order check fails for nonzero inputs. -/
theorem c6_iterate_128_mul87 (x : Block) (hx : Bytes16 x) :
    mult_by_2^[128] x = mulBy87 x := by
  have hmem : ∀ b ∈ (rng 0 16).map (fun i => byteBlock i (x.getD i 0)),
      Bytes16 b := by
    intro b hb
    obtain ⟨i, hi, rfl⟩ := List.mem_map.mp hb
    exact bytes16_byteBlock i _ (getD_lt_256 x hx.2 i)
  conv_lhs => rw [block_decomp x hx]
  conv_rhs => rw [block_decomp x hx]
  rw [iterate_bigXor 128 _ hmem, mulBy87_bigXor _ hmem, List.map_map, List.map_map]
  congr 1
  apply map_congr_mem
  intro i hi
  have hib := mem_rng i 0 16 hi
  show mult_by_2^[128] (byteBlock i (x.getD i 0)) = mulBy87 (byteBlock i (x.getD i 0))
  exact iterate_128_byteBlock i (by omega) _ (getD_lt_256 x hx.2 i)

/-- C6 witness: the amended identity at the unit block, whose image
`(0x87, 0, …, 0)` differs from it. -/
theorem c6_iterate_128_mul87_witness :
    mult_by_2^[128] [1,0,0,0,0,0,0,0,0,0,0,0,0,0,0,0]
      = mulBy87 [1,0,0,0,0,0,0,0,0,0,0,0,0,0,0,0] :=
  c6_iterate_128_mul87 [1,0,0,0,0,0,0,0,0,0,0,0,0,0,0,0] (by decide)
